import Mathlib

/-!
Verification of the stake-history core: the authoritative bounded
descending-sorted store (`StakeHistory`) and the two offset-path readers
(`StakeHistorySysvar` in `sdk/program/src/sysvar/stake_history.rs` and
`StakeHistorySyscall` in `sdk/program/src/stake_history.rs`), together
with the fixed binary encoding shared by both access paths.

Machine integers (`u64`) are modelled as `Nat` with explicit bounds
(`U64LIMIT`) where overflow or saturation matters.
-/

namespace StakeHist

/-- 2^64, the number of values of a `u64`. -/
def U64LIMIT : Nat := 18446744073709551616

/-- u64::MAX. -/
def U64MAX : Nat := U64LIMIT - 1

/-- `u64::saturating_add`. -/
def u64SatAdd (a b : Nat) : Nat := min (a + b) U64MAX

/-- `u64::checked_sub` (on `Nat` values standing for `u64`). -/
def checkedSub (a b : Nat) : Option Nat := if b ≤ a then some (a - b) else none

/-- `u64::checked_mul`. -/
def checkedMul (a b : Nat) : Option Nat := if a * b < U64LIMIT then some (a * b) else none

/-- `u64::checked_add`. -/
def checkedAdd (a b : Nat) : Option Nat := if a + b < U64LIMIT then some (a + b) else none

/-- `StakeHistoryEntry` from `sdk/program/src/stake_history.rs`. -/
structure StakeHistoryEntry where
  effective : Nat
  activating : Nat
  deactivating : Nat
deriving DecidableEq, Repr

/-- The all-zero entry (`StakeHistoryEntry::default()`). -/
def StakeHistoryEntry.default : StakeHistoryEntry := ⟨0, 0, 0⟩

/-- The fields are genuine `u64` values. -/
def StakeHistoryEntry.wf (e : StakeHistoryEntry) : Prop :=
  e.effective < U64LIMIT ∧ e.activating < U64LIMIT ∧ e.deactivating < U64LIMIT

instance (e : StakeHistoryEntry) : Decidable e.wf := by
  unfold StakeHistoryEntry.wf; infer_instance

/-- `impl Add for StakeHistoryEntry`: component-wise saturating addition. -/
def StakeHistoryEntry.add (a b : StakeHistoryEntry) : StakeHistoryEntry :=
  ⟨u64SatAdd a.effective b.effective,
   u64SatAdd a.activating b.activating,
   u64SatAdd a.deactivating b.deactivating⟩

/-- `StakeHistoryEntry::with_effective`. -/
def StakeHistoryEntry.with_effective (effective : Nat) : StakeHistoryEntry :=
  ⟨effective, 0, 0⟩

/-- `StakeHistoryEntry::with_effective_and_activating`. -/
def StakeHistoryEntry.with_effective_and_activating (effective activating : Nat) :
    StakeHistoryEntry := ⟨effective, activating, 0⟩

/-- `StakeHistoryEntry::with_deactivating`. -/
def StakeHistoryEntry.with_deactivating (deactivating : Nat) : StakeHistoryEntry :=
  ⟨deactivating, 0, deactivating⟩

/-- `MAX_ENTRIES` from `sdk/program/src/stake_history.rs`. -/
def MAX_ENTRIES : Nat := 512

/-- `StakeHistory` is a vector of `(Epoch, StakeHistoryEntry)` pairs. -/
abbrev StakeHistory := List (Nat × StakeHistoryEntry)

/-- The default pair handed to `getD`; the verified index bounds ensure
it is never actually produced. -/
def d0 : Nat × StakeHistoryEntry := (0, StakeHistoryEntry.default)

/-- `u64::cmp` (the `Ord` instance used by `epoch.cmp(&probe.0)`). -/
def natCmp (a b : Nat) : Ordering :=
  if a < b then Ordering.lt else if a = b then Ordering.eq else Ordering.gt

/-- The loop of Rust `slice::binary_search_by` with the comparator
`|probe| epoch.cmp(&probe.0)`, fuel-indexed: the fuel starts at the slice
length, which bounds the iteration count.  `Except.ok i` is Rust's
`Ok(i)` (found at `i`), `Except.error i` is `Err(i)` (insert at `i`). -/
def bsearchGo (h : StakeHistory) (epoch : Nat) : Nat → Nat → Nat → Except Nat Nat
  | left, _right, 0 => Except.error left
  | left, right, fuel + 1 =>
    if left < right then
      let mid := left + (right - left) / 2
      match natCmp epoch (h.getD mid d0).1 with
      | Ordering.lt => bsearchGo h epoch (mid + 1) right fuel
      | Ordering.gt => bsearchGo h epoch left mid fuel
      | Ordering.eq => Except.ok mid
    else Except.error left

/-- `self.binary_search_by(|probe| epoch.cmp(&probe.0))`. -/
def binary_search_by (h : StakeHistory) (epoch : Nat) : Except Nat Nat :=
  bsearchGo h epoch 0 h.length h.length

/-- `StakeHistory::get`. -/
def StakeHistory.get (h : StakeHistory) (epoch : Nat) : Option StakeHistoryEntry :=
  match binary_search_by h epoch with
  | Except.ok index => some (h.getD index d0).2
  | Except.error _ => none

/-- `StakeHistory::add`: overwrite in place if the epoch is present,
otherwise insert at the computed position; then truncate to
`MAX_ENTRIES`. -/
def StakeHistory.add (h : StakeHistory) (epoch : Nat) (entry : StakeHistoryEntry) :
    StakeHistory :=
  (match binary_search_by h epoch with
   | Except.ok index => h.set index (epoch, entry)
   | Except.error index => h.insertIdx index (epoch, entry)).take MAX_ENTRIES

/-- Fold a sequence of `add` calls over the empty history. -/
def addAll (ops : List (Nat × StakeHistoryEntry)) : StakeHistory :=
  ops.foldl (fun h p => StakeHistory.add h p.1 p.2) []

/-! ## Binary encoding (bincode fixed-width little-endian) -/

/-- The 8 little-endian bytes of a `u64` value. -/
def u64LE (v : Nat) : List Nat :=
  [v % 256, v / 256 % 256, v / 65536 % 256, v / 16777216 % 256,
   v / 4294967296 % 256, v / 1099511627776 % 256, v / 281474976710656 % 256,
   v / 72057594037927936 % 256]

/-- Read a little-endian `u64` from 8 bytes at `off`. -/
def readU64 (bytes : List Nat) (off : Nat) : Nat :=
  bytes.getD off 0 + 256 * (bytes.getD (off + 1) 0 + 256 * (bytes.getD (off + 2) 0 +
    256 * (bytes.getD (off + 3) 0 + 256 * (bytes.getD (off + 4) 0 +
    256 * (bytes.getD (off + 5) 0 + 256 * (bytes.getD (off + 6) 0 +
    256 * bytes.getD (off + 7) 0))))))

/-- One serialized `(Epoch, StakeHistoryEntry)` record: 32 bytes, being
epoch ‖ effective ‖ activating ‖ deactivating. -/
def serializeEntryPair (p : Nat × StakeHistoryEntry) : List Nat :=
  u64LE p.1 ++ u64LE p.2.effective ++ u64LE p.2.activating ++ u64LE p.2.deactivating

/-- `bincode::serialize` of a `StakeHistory`: an 8-byte record count
followed by the 32-byte records in sequence. -/
def serialize (h : StakeHistory) : List Nat :=
  u64LE h.length ++ (h.map serializeEntryPair).flatten

/-- `bincode::deserialize::<(Epoch, StakeHistoryEntry)>` on a byte buffer:
fails when fewer than 32 bytes are available. -/
def decodePair (buf : List Nat) : Option (Nat × StakeHistoryEntry) :=
  if 32 ≤ buf.length then
    some (readU64 buf 0, ⟨readU64 buf 8, readU64 buf 16, readU64 buf 24⟩)
  else none

/-- The size in bytes of one serialized record
(`EPOCH_AND_ENTRY_SERIALIZED_SIZE`). -/
def EPOCH_AND_ENTRY_SERIALIZED_SIZE : Nat := 32

/-- `<StakeHistory as Sysvar>::size_of`, hard-coded in
`sdk/program/src/sysvar/stake_history.rs`. -/
def StakeHistory.size_of : Nat := 16392

/-! ## The raw read primitive

An offset-path reader is parameterized by an abstract raw read
`read : offset → length → Option bytes`; `none` models a non-success
status from the host primitive. -/

/-- Modelled from the spec: the `RawSysvarReader` contract (`get_sysvar`
in `sdk/program/src/sysvar/mod.rs`, not part of the sources): copy
exactly `length` bytes of the serialized resource starting at `offset`,
failing when `offset + length` exceeds the resource size. -/
def mkReader (data : List Nat) : Nat → Nat → Option (List Nat) :=
  fun offset length =>
    if offset + length ≤ data.length then some ((data.drop offset).take length)
    else none

/-! ## The offset-path readers -/

/-- `ProgramError` (only the variant the sources use). -/
inductive ProgramError where
  | InvalidAccountData
deriving DecidableEq, Repr

/-- `StakeHistorySysvar` from `sdk/program/src/sysvar/stake_history.rs`:
holds only the current epoch. -/
structure StakeHistorySysvar where
  epoch : Nat
deriving DecidableEq, Repr

/-- `StakeHistorySysvar::new`: fails on `current_epoch == 0`. -/
def StakeHistorySysvar.new (current_epoch : Nat) :
    Except ProgramError StakeHistorySysvar :=
  if current_epoch > 0 then Except.ok ⟨current_epoch⟩
  else Except.error ProgramError.InvalidAccountData

/-- `StakeHistorySyscall` from `sdk/program/src/stake_history.rs`. -/
structure StakeHistorySyscall where
  epoch : Nat
deriving DecidableEq, Repr

/-- `StakeHistorySyscall::new`: total, never fails. -/
def StakeHistorySyscall.new (current_epoch : Nat) : StakeHistorySyscall :=
  ⟨current_epoch⟩

/-- The tail of `StakeHistorySysvar::get_entry` after the raw read: decode
the 32 bytes (`.ok()?`, so a decode failure is `None`), then
`assert_eq!(entry_epoch, target_epoch)` (modelled as `Except.error`, a
panic), then return the entry. -/
def handleRead (target_epoch : Nat) (res : Option (List Nat)) :
    Except String (Option StakeHistoryEntry) :=
  match res with
  | some entry_buf =>
    match decodePair entry_buf with
    | some (entry_epoch, entry) =>
      if entry_epoch = target_epoch then Except.ok (some entry)
      else Except.error "entry epoch does not match target epoch"
    | none => Except.ok none
  | none => Except.ok none

/-- `<StakeHistorySysvar as StakeHistoryGetEntry>::get_entry`.  A `?`
early return is `Except.ok none`; the post-read `assert_eq!` is
`Except.error`. -/
def StakeHistorySysvar.get_entry (current_epoch : Nat)
    (read : Nat → Nat → Option (List Nat)) (target_epoch : Nat) :
    Except String (Option StakeHistoryEntry) :=
  match checkedSub current_epoch 1 with
  | none => Except.ok none
  | some newest_historical_epoch =>
    let oldest_historical_epoch := current_epoch - MAX_ENTRIES
    if target_epoch = 0 then Except.ok none
    else if target_epoch < oldest_historical_epoch then Except.ok none
    else
      match checkedSub newest_historical_epoch target_epoch with
      | none => Except.ok none
      | some epoch_delta =>
        match checkedMul epoch_delta EPOCH_AND_ENTRY_SERIALIZED_SIZE with
        | none => Except.ok none
        | some m =>
          match checkedAdd m 8 with
          | none => Except.ok none
          | some offset => handleRead target_epoch (read offset EPOCH_AND_ENTRY_SERIALIZED_SIZE)

/-- `<StakeHistorySyscall as StakeHistoryGetEntry>::get_entry` from
`sdk/program/src/stake_history.rs`.  The unchecked `current_epoch - 1` is
modelled as a panic on underflow; `assert!`/`panic!`/`assert_eq!` are
`Except.error`; a non-`SUCCESS` raw-read status trips
`assert_eq!(result, SUCCESS)`.  Note the inverted assertion inside the
`Some` branch of the `checked_sub` match, translated as written. -/
def StakeHistorySyscall.get_entry (current_epoch : Nat)
    (read : Nat → Nat → Option (List Nat)) (target_epoch : Nat) :
    Except String (Option StakeHistoryEntry) :=
  match checkedSub current_epoch 1 with
  | none => Except.error "attempt to subtract with overflow"
  | some newest_historical_epoch =>
    let oldest_historical_epoch := newest_historical_epoch - MAX_ENTRIES
    match checkedSub newest_historical_epoch target_epoch with
    | none => Except.error "target epoch is in the future"
    | some epoch_delta =>
      if target_epoch > newest_historical_epoch then
        if target_epoch = 0 then Except.error "target epoch is before the beginning of time"
        else if target_epoch < oldest_historical_epoch then Except.ok none
        else
          let offset := epoch_delta * 32 + 8
          match read offset 32 with
          | none => Except.error "sol_get_sysvar did not return SUCCESS"
          | some entry_buf =>
            match decodePair entry_buf with
            | none => Except.error "deserialize failed"
            | some (entry_epoch, entry) =>
              if entry_epoch = target_epoch then Except.ok (some entry)
              else Except.error "entry epoch does not match target epoch"
      else Except.error "assertion failed: target_epoch > newest_historical_epoch"

/-! ## Specification-side definitions used by the theorems -/

/-- The `StakeHistory` sort invariant: strictly decreasing epochs. -/
def SortedDesc (h : StakeHistory) : Prop :=
  List.Pairwise (fun a b => b.1 < a.1) h

/-- The one-pass insert-or-overwrite on a descending-sorted association
list; on sorted histories it coincides with the binary-search-driven
`add` (before truncation). -/
def insertDesc (epoch : Nat) (entry : StakeHistoryEntry) : StakeHistory → StakeHistory
  | [] => [(epoch, entry)]
  | p :: t =>
    if p.1 < epoch then (epoch, entry) :: p :: t
    else if epoch = p.1 then (epoch, entry) :: t
    else p :: insertDesc epoch entry t

/-- The entry most recently inserted for epoch `e` in an operation
sequence. -/
def lastEntry (ops : List (Nat × StakeHistoryEntry)) (e : Nat) :
    Option StakeHistoryEntry :=
  (ops.reverse.find? (fun p => p.1 == e)).map (fun p => p.2)

/-- The invariant linking a history to the sequence of insertions that
produced it: sorted, bounded, entries are the most recent for their
epoch, every retained epoch was inserted, and every inserted epoch that
is absent lies strictly below a full window. -/
def HistInv (ops : List (Nat × StakeHistoryEntry)) (h : StakeHistory) : Prop :=
  SortedDesc h ∧ h.length ≤ MAX_ENTRIES ∧
  (∀ p ∈ h, lastEntry ops p.1 = some p.2) ∧
  (∀ p ∈ h, p.1 ∈ ops.map Prod.fst) ∧
  (∀ x, x ∈ ops.map Prod.fst → x ∉ h.map Prod.fst →
    h.length = MAX_ENTRIES ∧ ∀ q ∈ h, x < q.1)

/-! ## Correctness of the binary search on descending-sorted histories -/

theorem natCmp_lt {a b : Nat} : natCmp a b = Ordering.lt ↔ a < b := by
  unfold natCmp; split_ifs with h1 h2 <;> simp_all <;> omega

theorem natCmp_eq {a b : Nat} : natCmp a b = Ordering.eq ↔ a = b := by
  unfold natCmp; split_ifs with h1 h2 <;> simp_all <;> omega

theorem natCmp_gt {a b : Nat} : natCmp a b = Ordering.gt ↔ b < a := by
  unfold natCmp; split_ifs with h1 h2 <;> simp_all <;> omega

theorem sorted_getD_lt {h : StakeHistory} (hs : SortedDesc h) {i j : Nat}
    (hij : i < j) (hj : j < h.length) :
    (h.getD j d0).1 < (h.getD i d0).1 := by
  rw [List.getD_eq_getElem h d0 hj, List.getD_eq_getElem h d0 (lt_trans hij hj)]
  exact List.pairwise_iff_getElem.mp hs i j (lt_trans hij hj) hj hij

theorem bsearchGo_spec (h : StakeHistory) (e : Nat) (hs : SortedDesc h) :
    ∀ (fuel left right : Nat), left ≤ right → right ≤ h.length → right - left ≤ fuel →
    (∀ j, j < left → e < (h.getD j d0).1) →
    (∀ j, right ≤ j → j < h.length → (h.getD j d0).1 < e) →
    (∀ i, bsearchGo h e left right fuel = Except.ok i →
        i < h.length ∧ (h.getD i d0).1 = e) ∧
    (∀ i, bsearchGo h e left right fuel = Except.error i →
        i ≤ h.length ∧ (∀ j, j < i → e < (h.getD j d0).1) ∧
        (∀ j, i ≤ j → j < h.length → (h.getD j d0).1 < e)) := by
  intro fuel
  induction fuel with
  | zero =>
    intro left right hlr hrl _hfuel hleft hright
    constructor
    · intro i hok; simp [bsearchGo] at hok
    · intro i herr
      simp only [bsearchGo, Except.error.injEq] at herr
      subst herr
      exact ⟨le_trans hlr hrl, hleft, fun j hij hjl => hright j (by omega) hjl⟩
  | succ fuel ih =>
    intro left right hlr hrl hfuel hleft hright
    by_cases hlt : left < right
    · have hmidlt : left + (right - left) / 2 < right := by omega
      have hmidlen : left + (right - left) / 2 < h.length := lt_of_lt_of_le hmidlt hrl
      simp only [bsearchGo, if_pos hlt]
      cases hc : natCmp e (h.getD (left + (right - left) / 2) d0).1 with
      | lt =>
        have hemid : e < (h.getD (left + (right - left) / 2) d0).1 := natCmp_lt.mp hc
        refine ih (left + (right - left) / 2 + 1) right (by omega) hrl (by omega) ?_ hright
        intro j hj
        rcases Nat.lt_or_ge j (left + (right - left) / 2) with hjm | hjm
        · exact lt_trans hemid (sorted_getD_lt hs hjm hmidlen)
        · have : j = left + (right - left) / 2 := by omega
          rw [this]; exact hemid
      | gt =>
        have hmide : (h.getD (left + (right - left) / 2) d0).1 < e := natCmp_gt.mp hc
        refine ih left (left + (right - left) / 2) (by omega) (le_of_lt hmidlen) (by omega)
          hleft ?_
        intro j hmj hjl
        rcases Nat.lt_or_ge (left + (right - left) / 2) j with hjm | hjm
        · exact lt_trans (sorted_getD_lt hs hjm hjl) hmide
        · have : j = left + (right - left) / 2 := by omega
          rw [this]; exact hmide
      | eq =>
        constructor
        · intro i hok
          simp only [Except.ok.injEq] at hok
          subst hok
          exact ⟨hmidlen, natCmp_eq.mp hc ▸ rfl⟩
        · intro i herr; simp at herr
    · simp only [bsearchGo, if_neg hlt]
      constructor
      · intro i hok; simp at hok
      · intro i herr
        simp only [Except.error.injEq] at herr
        subst herr
        exact ⟨le_trans hlr hrl, hleft, fun j hij hjl => hright j (by omega) hjl⟩

theorem binary_search_by_ok {h : StakeHistory} {e : Nat} (hs : SortedDesc h) {i : Nat}
    (hok : binary_search_by h e = Except.ok i) :
    i < h.length ∧ (h.getD i d0).1 = e :=
  (bsearchGo_spec h e hs h.length 0 h.length (Nat.zero_le _) le_rfl (by omega)
    (by omega) (by omega)).1 i hok

theorem binary_search_by_error {h : StakeHistory} {e : Nat} (hs : SortedDesc h) {i : Nat}
    (herr : binary_search_by h e = Except.error i) :
    i ≤ h.length ∧ (∀ j, j < i → e < (h.getD j d0).1) ∧
      (∀ j, i ≤ j → j < h.length → (h.getD j d0).1 < e) :=
  (bsearchGo_spec h e hs h.length 0 h.length (Nat.zero_le _) le_rfl (by omega)
    (by omega) (by omega)).2 i herr

theorem binary_search_by_error_not_mem {h : StakeHistory} {e : Nat} (hs : SortedDesc h)
    {i : Nat} (herr : binary_search_by h e = Except.error i) :
    ∀ p ∈ h, p.1 ≠ e := by
  obtain ⟨_hi, hbelow, habove⟩ := binary_search_by_error hs herr
  intro p hp
  obtain ⟨n, hn, rfl⟩ := List.mem_iff_getElem.mp hp
  rw [← List.getD_eq_getElem h d0 hn]
  rcases Nat.lt_or_ge n i with hni | hni
  · exact fun hpe => absurd (hbelow n hni) (by omega)
  · exact fun hpe => absurd (habove n hni hn) (by omega)

theorem mem_binary_search_ok {h : StakeHistory} {e : Nat} {E : StakeHistoryEntry}
    (hs : SortedDesc h) (hmem : (e, E) ∈ h) :
    ∃ i, binary_search_by h e = Except.ok i := by
  cases hres : binary_search_by h e with
  | ok i => exact ⟨i, rfl⟩
  | error i => exact absurd rfl (binary_search_by_error_not_mem hs hres (e, E) hmem)

/-- The epochs of a sorted history are pairwise distinct: positions with
equal epochs coincide. -/
theorem sorted_key_inj {h : StakeHistory} (hs : SortedDesc h) {i j : Nat}
    (hi : i < h.length) (hj : j < h.length)
    (hkey : (h.getD i d0).1 = (h.getD j d0).1) : i = j := by
  rcases Nat.lt_trichotomy i j with hij | hij | hij
  · exact absurd (sorted_getD_lt hs hij hj) (by omega)
  · exact hij
  · exact absurd (sorted_getD_lt hs hij hi) (by omega)

/-- `get` on a sorted history returns exactly the retained entry. -/
theorem get_eq_some_iff {h : StakeHistory} (hs : SortedDesc h) {e : Nat}
    {E : StakeHistoryEntry} :
    StakeHistory.get h e = some E ↔ (e, E) ∈ h := by
  constructor
  · intro hget
    unfold StakeHistory.get at hget
    cases hres : binary_search_by h e with
    | ok i =>
      rw [hres] at hget
      obtain ⟨hi, hkey⟩ := binary_search_by_ok hs hres
      simp only [Option.some.injEq] at hget
      have : h.getD i d0 = (e, E) := Prod.ext hkey hget
      rw [← this, List.getD_eq_getElem h d0 hi]
      exact List.getElem_mem hi
    | error i => rw [hres] at hget; simp at hget
  · intro hmem
    obtain ⟨i, hok⟩ := mem_binary_search_ok hs hmem
    obtain ⟨hi, hkey⟩ := binary_search_by_ok hs hok
    obtain ⟨n, hn, hne⟩ := List.mem_iff_getElem.mp hmem
    have hkeyn : (h.getD n d0).1 = e := by
      rw [List.getD_eq_getElem h d0 hn, hne]
    have hin : i = n := sorted_key_inj hs hi hn (by rw [hkey, hkeyn])
    unfold StakeHistory.get
    rw [hok]
    subst hin
    show some (h.getD i d0).2 = some E
    rw [List.getD_eq_getElem h d0 hi, hne]

/-- `get` misses exactly the epochs not retained. -/
theorem get_eq_none_iff {h : StakeHistory} (hs : SortedDesc h) {e : Nat} :
    StakeHistory.get h e = none ↔ ∀ p ∈ h, p.1 ≠ e := by
  constructor
  · intro hget p hp hpe
    have hmem : (e, p.2) ∈ h := by
      have : p = (e, p.2) := Prod.ext hpe rfl
      rw [← this]; exact hp
    rw [(get_eq_some_iff hs).mpr hmem] at hget
    simp at hget
  · intro hnone
    unfold StakeHistory.get
    cases hres : binary_search_by h e with
    | ok i =>
      obtain ⟨hi, hkey⟩ := binary_search_by_ok hs hres
      have hmem : h.getD i d0 ∈ h := by
        rw [List.getD_eq_getElem h d0 hi]; exact List.getElem_mem hi
      exact absurd hkey (hnone _ hmem)
    | error i => rfl

/-! ## A structural description of `add` on sorted histories -/

theorem set_eq_insertDesc {h : StakeHistory} (hs : SortedDesc h) {e : Nat}
    {E : StakeHistoryEntry} :
    ∀ i, i < h.length → (h.getD i d0).1 = e → h.set i (e, E) = insertDesc e E h := by
  induction h with
  | nil => intro i hi; simp at hi
  | cons p t ih =>
    intro i hi hkey
    cases i with
    | zero =>
      simp only [List.getD_cons_zero] at hkey
      unfold insertDesc
      rw [if_neg (by omega), if_pos hkey.symm]
      rfl
    | succ i =>
      have hpe : e < p.1 := by
        have hgd := sorted_getD_lt (h := p :: t) hs (i := 0) (j := i + 1) (by omega) hi
        simp only [List.getD_cons_zero] at hgd
        omega
      unfold insertDesc
      rw [if_neg (by omega), if_neg (by omega)]
      simp only [List.set_cons_succ, List.cons.injEq, true_and]
      exact ih (List.Pairwise.of_cons hs) i (by simpa using hi) (by simpa using hkey)

theorem insertIdx_eq_insertDesc {h : StakeHistory} {e : Nat} {E : StakeHistoryEntry} :
    ∀ i, i ≤ h.length → (∀ j, j < i → e < (h.getD j d0).1) →
      (∀ j, i ≤ j → j < h.length → (h.getD j d0).1 < e) →
      h.insertIdx i (e, E) = insertDesc e E h := by
  induction h with
  | nil =>
    intro i hi _ _
    have hz : i = 0 := by simpa using hi
    subst hz
    rfl
  | cons p t ih =>
    intro i hi hbelow habove
    cases i with
    | zero =>
      have hpe : p.1 < e := by
        have := habove 0 (Nat.zero_le _) (by simp)
        simpa using this
      unfold insertDesc
      rw [if_pos hpe]
      rfl
    | succ i =>
      have hep : e < p.1 := by
        have := hbelow 0 (Nat.succ_pos i)
        simpa using this
      unfold insertDesc
      rw [if_neg (by omega), if_neg (by omega)]
      rw [List.insertIdx_succ_cons]
      simp only [List.cons.injEq, true_and]
      refine ih i (by simpa using hi) ?_ ?_
      · intro j hj
        have := hbelow (j + 1) (by omega)
        simpa using this
      · intro j hij hjl
        have := habove (j + 1) (by omega) (by simpa using Nat.succ_lt_succ hjl)
        simpa using this

/-- On a sorted history, `add` is `insertDesc` followed by truncation. -/
theorem add_eq_insertDesc {h : StakeHistory} (hs : SortedDesc h) (e : Nat)
    (E : StakeHistoryEntry) :
    StakeHistory.add h e E = (insertDesc e E h).take MAX_ENTRIES := by
  unfold StakeHistory.add
  cases hres : binary_search_by h e with
  | ok i =>
    obtain ⟨hi, hkey⟩ := binary_search_by_ok hs hres
    show (h.set i (e, E)).take MAX_ENTRIES = (insertDesc e E h).take MAX_ENTRIES
    rw [set_eq_insertDesc hs i hi hkey]
  | error i =>
    obtain ⟨hi, hbelow, habove⟩ := binary_search_by_error hs hres
    show (h.insertIdx i (e, E)).take MAX_ENTRIES = (insertDesc e E h).take MAX_ENTRIES
    rw [insertIdx_eq_insertDesc i hi hbelow habove]

/-- Membership in `insertDesc` (on a sorted history): the new pair, or an
old pair whose epoch is not the inserted one. -/
theorem mem_insertDesc {h : StakeHistory} (hs : SortedDesc h) {e : Nat}
    {E : StakeHistoryEntry} {q : Nat × StakeHistoryEntry}
    (hq : q ∈ insertDesc e E h) : q = (e, E) ∨ (q ∈ h ∧ q.1 ≠ e) := by
  induction h with
  | nil => simp only [insertDesc, List.mem_singleton] at hq; exact Or.inl hq
  | cons p t ih =>
    have hhead : ∀ r ∈ t, r.1 < p.1 := (List.pairwise_cons.mp hs).1
    have htail : SortedDesc t := (List.pairwise_cons.mp hs).2
    unfold insertDesc at hq
    split_ifs at hq with h1 h2
    · rcases List.mem_cons.mp hq with rfl | hq2
      · exact Or.inl rfl
      · refine Or.inr ⟨hq2, ?_⟩
        rcases List.mem_cons.mp hq2 with rfl | hq3
        · omega
        · have := hhead q hq3; omega
    · rcases List.mem_cons.mp hq with rfl | hq2
      · exact Or.inl rfl
      · have := hhead q hq2
        exact Or.inr ⟨List.mem_cons_of_mem p hq2, by omega⟩
    · rcases List.mem_cons.mp hq with rfl | hq2
      · exact Or.inr ⟨List.mem_cons_self q t, by omega⟩
      · rcases ih htail hq2 with hq3 | ⟨hq3, hq4⟩
        · exact Or.inl hq3
        · exact Or.inr ⟨List.mem_cons_of_mem p hq3, hq4⟩

/-- The inserted pair is always present. -/
theorem insertDesc_mem_self {h : StakeHistory} (e : Nat) (E : StakeHistoryEntry) :
    (e, E) ∈ insertDesc e E h := by
  induction h with
  | nil => simp [insertDesc]
  | cons p t ih =>
    unfold insertDesc
    split_ifs with h1 h2 <;> simp [ih]

/-- Old pairs with a different epoch survive the insert. -/
theorem insertDesc_mem_keep {h : StakeHistory} {e : Nat} {E : StakeHistoryEntry}
    {q : Nat × StakeHistoryEntry} (hq : q ∈ h) (hne : q.1 ≠ e) :
    q ∈ insertDesc e E h := by
  induction h with
  | nil => simp at hq
  | cons p t ih =>
    unfold insertDesc
    rcases List.mem_cons.mp hq with rfl | hq2
    · split_ifs with h1 h2
      · simp
      · omega
      · simp
    · split_ifs with h1 h2
      · simp only [List.mem_cons]
        exact Or.inr (Or.inr hq2)
      · simp only [List.mem_cons]
        exact Or.inr hq2
      · simp only [List.mem_cons]
        exact Or.inr (ih hq2)

theorem insertDesc_sorted {h : StakeHistory} (hs : SortedDesc h) (e : Nat)
    (E : StakeHistoryEntry) : SortedDesc (insertDesc e E h) := by
  induction h with
  | nil => simp [insertDesc, SortedDesc]
  | cons p t ih =>
    have hhead : ∀ r ∈ t, r.1 < p.1 := (List.pairwise_cons.mp hs).1
    have htail : SortedDesc t := (List.pairwise_cons.mp hs).2
    unfold insertDesc
    split_ifs with h1 h2
    · refine List.pairwise_cons.mpr ⟨?_, hs⟩
      intro q hq
      rcases List.mem_cons.mp hq with rfl | hq2
      · exact h1
      · have := hhead q hq2; omega
    · refine List.pairwise_cons.mpr ⟨?_, htail⟩
      intro q hq
      have := hhead q hq; omega
    · refine List.pairwise_cons.mpr ⟨?_, ih htail⟩
      intro q hq
      rcases mem_insertDesc htail hq with rfl | ⟨hq2, _⟩
      · omega
      · exact hhead q hq2

/-- Inserting an epoch already present in a sorted history keeps the
length. -/
theorem insertDesc_length_mem {h : StakeHistory} (hs : SortedDesc h) {e : Nat}
    (E : StakeHistoryEntry) (hmem : e ∈ h.map Prod.fst) :
    (insertDesc e E h).length = h.length := by
  induction h with
  | nil => simp at hmem
  | cons p t ih =>
    have hhead : ∀ r ∈ t, r.1 < p.1 := (List.pairwise_cons.mp hs).1
    have htail : SortedDesc t := (List.pairwise_cons.mp hs).2
    unfold insertDesc
    split_ifs with h1 h2
    · exfalso
      rcases List.mem_map.mp hmem with ⟨q, hq, hqe⟩
      rcases List.mem_cons.mp hq with rfl | hq2
      · omega
      · have := hhead q hq2; omega
    · simp
    · simp only [List.length_cons]
      have hmt : e ∈ t.map Prod.fst := by
        rcases List.mem_map.mp hmem with ⟨q, hq, hqe⟩
        rcases List.mem_cons.mp hq with rfl | hq2
        · omega
        · exact List.mem_map.mpr ⟨q, hq2, hqe⟩
      rw [ih htail hmt]

/-- Inserting a fresh epoch grows the length by one. -/
theorem insertDesc_length_new {h : StakeHistory} {e : Nat} (E : StakeHistoryEntry)
    (hmem : e ∉ h.map Prod.fst) :
    (insertDesc e E h).length = h.length + 1 := by
  induction h with
  | nil => simp [insertDesc]
  | cons p t ih =>
    have hpe : ¬ e = p.1 := by
      intro hcon
      exact hmem (List.mem_map.mpr ⟨p, List.mem_cons_self p t, hcon.symm⟩)
    unfold insertDesc
    by_cases h1 : p.1 < e
    · rw [if_pos h1]; simp
    · rw [if_neg h1, if_neg hpe]
      simp only [List.length_cons]
      rw [ih (fun hcon => hmem (by
        rcases List.mem_map.mp hcon with ⟨q, hq, hqe⟩
        exact List.mem_map.mpr ⟨q, List.mem_cons_of_mem p hq, hqe⟩))]

/-- Inserting below every retained epoch appends at the tail. -/
theorem insertDesc_all_lt {h : StakeHistory} {e : Nat} (E : StakeHistoryEntry)
    (hlt : ∀ q ∈ h, e < q.1) :
    insertDesc e E h = h ++ [(e, E)] := by
  induction h with
  | nil => rfl
  | cons p t ih =>
    have := hlt p (List.mem_cons_self p t)
    unfold insertDesc
    rw [if_neg (by omega), if_neg (by omega)]
    simp only [List.cons_append, List.cons.injEq, true_and]
    exact ih (fun q hq => hlt q (List.mem_cons_of_mem p hq))

/-- In a sorted list, everything dropped is strictly below everything
taken. -/
theorem sorted_drop_lt_take {l : StakeHistory} (hs : SortedDesc l) {K : Nat}
    {q r : Nat × StakeHistoryEntry} (hq : q ∈ l.take K) (hr : r ∈ l.drop K) :
    r.1 < q.1 := by
  have hsplit : l.take K ++ l.drop K = l := List.take_append_drop K l
  rw [← hsplit] at hs
  exact (List.pairwise_append.mp hs).2.2 q hq r hr

theorem mem_take_or_drop {l : StakeHistory} {K : Nat}
    {q : Nat × StakeHistoryEntry} (hq : q ∈ l) : q ∈ l.take K ∨ q ∈ l.drop K := by
  rw [← List.take_append_drop K l] at hq
  exact List.mem_append.mp hq

/-! ## The insertion-sequence invariant -/

theorem lastEntry_append_self (ops : List (Nat × StakeHistoryEntry)) (e : Nat)
    (E : StakeHistoryEntry) : lastEntry (ops ++ [(e, E)]) e = some E := by
  unfold lastEntry
  rw [List.reverse_append]
  simp only [List.reverse_cons, List.reverse_nil, List.nil_append, List.singleton_append]
  rw [List.find?_cons_of_pos _ (by simp)]
  rfl

theorem lastEntry_append_ne {x e : Nat} (hxe : x ≠ e)
    (ops : List (Nat × StakeHistoryEntry)) (E : StakeHistoryEntry) :
    lastEntry (ops ++ [(e, E)]) x = lastEntry ops x := by
  unfold lastEntry
  rw [List.reverse_append]
  simp only [List.reverse_cons, List.reverse_nil, List.nil_append, List.singleton_append]
  rw [List.find?_cons_of_neg _ (by simp only [beq_iff_eq]; exact fun hc => hxe hc.symm)]

theorem add_preserves_inv {ops : List (Nat × StakeHistoryEntry)} {h : StakeHistory}
    {e : Nat} {E : StakeHistoryEntry} (hinv : HistInv ops h) :
    HistInv (ops ++ [(e, E)]) (StakeHistory.add h e E) := by
  obtain ⟨hs, hlen, hlast, hseen, hmiss⟩ := hinv
  rw [add_eq_insertDesc hs e E]
  have hsl : SortedDesc (insertDesc e E h) := insertDesc_sorted hs e E
  refine ⟨List.Pairwise.sublist (List.take_sublist _ _) hsl, ?_, ?_, ?_, ?_⟩
  · rw [List.length_take]; exact min_le_left _ _
  · intro p hp
    have hpl : p ∈ insertDesc e E h := List.take_subset _ _ hp
    rcases mem_insertDesc hs hpl with rfl | ⟨hph, hpne⟩
    · exact lastEntry_append_self ops e E
    · rw [lastEntry_append_ne hpne]
      exact hlast p hph
  · intro p hp
    have hpl : p ∈ insertDesc e E h := List.take_subset _ _ hp
    rw [List.map_append]
    rcases mem_insertDesc hs hpl with rfl | ⟨hph, _⟩
    · exact List.mem_append.mpr (Or.inr (by simp))
    · exact List.mem_append.mpr (Or.inl (hseen p hph))
  · intro x hx hxne
    have hx2 : x ∈ List.map Prod.fst ops ∨ x = e := by simpa using hx
    by_cases hxl : x ∈ (insertDesc e E h).map Prod.fst
    · rcases List.mem_map.mp hxl with ⟨q, hql, hqx⟩
      have hqtake : q ∉ (insertDesc e E h).take MAX_ENTRIES :=
        fun hc => hxne (List.mem_map.mpr ⟨q, hc, hqx⟩)
      have hqdrop : q ∈ (insertDesc e E h).drop MAX_ENTRIES :=
        (mem_take_or_drop hql).resolve_left hqtake
      have hllen : MAX_ENTRIES < (insertDesc e E h).length := by
        by_contra hc
        push_neg at hc
        rw [List.drop_eq_nil_of_le hc] at hqdrop
        simp at hqdrop
      constructor
      · rw [List.length_take]; omega
      · intro r hr
        have := sorted_drop_lt_take hsl hr hqdrop
        omega
    · have hxe : x ≠ e :=
        fun hc => hxl (List.mem_map.mpr ⟨(e, E), insertDesc_mem_self e E, hc.symm⟩)
      have hxh : x ∉ h.map Prod.fst := by
        intro hc
        rcases List.mem_map.mp hc with ⟨q, hqh, hqx⟩
        exact hxl (List.mem_map.mpr
          ⟨q, insertDesc_mem_keep hqh (by rw [hqx]; exact hxe), hqx⟩)
      have hxops : x ∈ ops.map Prod.fst := hx2.resolve_right hxe
      obtain ⟨hfull, hbelow⟩ := hmiss x hxops hxh
      by_cases hecase : e ∈ h.map Prod.fst
      · have hll : (insertDesc e E h).length = h.length := insertDesc_length_mem hs E hecase
        have htake_eq : (insertDesc e E h).take MAX_ENTRIES = insertDesc e E h :=
          List.take_of_length_le (by omega)
        rw [htake_eq]
        refine ⟨by omega, ?_⟩
        intro r hr
        rcases mem_insertDesc hs hr with rfl | ⟨hrh, _⟩
        · show x < e
          rcases List.mem_map.mp hecase with ⟨q, hqh, hqe⟩
          have := hbelow q hqh
          omega
        · exact hbelow r hrh
      · rcases Nat.lt_or_ge x e with hxlt | hxge
        · have hll : (insertDesc e E h).length = h.length + 1 :=
            insertDesc_length_new E hecase
          constructor
          · rw [List.length_take]; omega
          · intro r hr
            have hrl : r ∈ insertDesc e E h := List.take_subset _ _ hr
            rcases mem_insertDesc hs hrl with rfl | ⟨hrh, _⟩
            · exact hxlt
            · exact hbelow r hrh
        · have helt : ∀ q ∈ h, e < q.1 := by
            intro q hq
            have := hbelow q hq
            omega
          have htake : (insertDesc e E h).take MAX_ENTRIES = h := by
            rw [insertDesc_all_lt E helt]
            exact List.take_left' hfull
          rw [htake]
          exact ⟨hfull, hbelow⟩

theorem addAll_inv (ops : List (Nat × StakeHistoryEntry)) : HistInv ops (addAll ops) := by
  induction ops using List.reverseRecOn with
  | nil =>
    refine ⟨List.Pairwise.nil, by simp [addAll, MAX_ENTRIES], ?_, ?_, ?_⟩ <;>
      simp [addAll]
  | append_singleton ops p ih =>
    have hstep : addAll (ops ++ [p]) = StakeHistory.add (addAll ops) p.1 p.2 := by
      unfold addAll
      rw [List.foldl_append]
      rfl
    rw [hstep]
    have hnext := add_preserves_inv (e := p.1) (E := p.2) ih
    simpa using hnext

/-- The length of a history satisfying the invariant is exactly
`min(distinct inserted epochs, capacity)`. -/
theorem histInv_length {ops : List (Nat × StakeHistoryEntry)} {h : StakeHistory}
    (hinv : HistInv ops h) :
    h.length = min ((ops.map Prod.fst).dedup.length) MAX_ENTRIES := by
  obtain ⟨hs, hlen, _hlast, hseen, hmiss⟩ := hinv
  have hnodup : (h.map Prod.fst).Nodup :=
    List.Pairwise.map Prod.fst (fun a b hab => ne_of_gt hab) hs
  by_cases hall : ∀ x ∈ ops.map Prod.fst, x ∈ h.map Prod.fst
  · have hperm : (h.map Prod.fst).Perm ((ops.map Prod.fst).dedup) := by
      rw [List.perm_ext_iff_of_nodup hnodup (List.nodup_dedup _)]
      intro a
      rw [List.mem_dedup]
      constructor
      · intro ha
        rcases List.mem_map.mp ha with ⟨q, hq, hqa⟩
        exact hqa ▸ hseen q hq
      · intro ha
        exact hall a ha
    have hdl : (ops.map Prod.fst).dedup.length = h.length := by
      rw [← hperm.length_eq, List.length_map]
    omega
  · push_neg at hall
    obtain ⟨x, hxops, hxh⟩ := hall
    obtain ⟨hfull, _⟩ := hmiss x hxops hxh
    have hsub : (x :: h.map Prod.fst).Nodup := List.nodup_cons.mpr ⟨hxh, hnodup⟩
    have hsubset : (x :: h.map Prod.fst) ⊆ (ops.map Prod.fst).dedup := by
      intro a ha
      rw [List.mem_dedup]
      rcases List.mem_cons.mp ha with rfl | ha2
      · exact hxops
      · rcases List.mem_map.mp ha2 with ⟨q, hq, hqa⟩
        exact hqa ▸ hseen q hq
    have hle := (List.subperm_of_subset hsub hsubset).length_le
    simp only [List.length_cons, List.length_map] at hle
    omega

/-! ## Behaviour of the sysvar reader inside the retention window -/

theorem U64LIMIT_eq : U64LIMIT = 18446744073709551616 := rfl

theorem handleRead_none (t : Nat) : handleRead t none = Except.ok none := rfl

theorem handleRead_some {buf : List Nat} {ee : Nat} {en : StakeHistoryEntry}
    (hdec : decodePair buf = some (ee, en)) (t : Nat) :
    handleRead t (some buf) =
      if ee = t then Except.ok (some en)
      else Except.error "entry epoch does not match target epoch" := by
  simp only [handleRead, hdec]

theorem handleRead_short {buf : List Nat} (hlen : buf.length < 32) (t : Nat) :
    handleRead t (some buf) = Except.ok none := by
  simp only [handleRead, decodePair]
  rw [if_neg (by omega)]

/-- Inside the decision-policy window the sysvar reader consults the raw
read exactly once, at the record offset, and post-processes its result
with `handleRead`. -/
theorem getEntry_window {current_epoch target_epoch : Nat} (hc : 0 < current_epoch)
    (ht0 : 0 < target_epoch) (hto : current_epoch - MAX_ENTRIES ≤ target_epoch)
    (htc : target_epoch < current_epoch) (read : Nat → Nat → Option (List Nat)) :
    StakeHistorySysvar.get_entry current_epoch read target_epoch =
      handleRead target_epoch (read (8 + (current_epoch - 1 - target_epoch) * 32) 32) := by
  have hdelta : current_epoch - 1 - target_epoch ≤ 511 := by
    unfold MAX_ENTRIES at hto; omega
  have hsub1 : checkedSub current_epoch 1 = some (current_epoch - 1) := by
    unfold checkedSub; rw [if_pos (by omega)]
  have hsub2 : checkedSub (current_epoch - 1) target_epoch =
      some (current_epoch - 1 - target_epoch) := by
    unfold checkedSub; rw [if_pos (by omega)]
  have hmul : checkedMul (current_epoch - 1 - target_epoch) 32 =
      some ((current_epoch - 1 - target_epoch) * 32) := by
    unfold checkedMul U64LIMIT
    rw [if_pos (by omega)]
  have hadd : checkedAdd ((current_epoch - 1 - target_epoch) * 32) 8 =
      some ((current_epoch - 1 - target_epoch) * 32 + 8) := by
    unfold checkedAdd U64LIMIT
    rw [if_pos (by omega)]
  unfold StakeHistorySysvar.get_entry
  simp only [hsub1, hsub2, hmul, hadd, MAX_ENTRIES, EPOCH_AND_ENTRY_SERIALIZED_SIZE]
  rw [if_neg (by omega), if_neg (show ¬ target_epoch < current_epoch - 512 by
    unfold MAX_ENTRIES at hto; omega)]
  rw [Nat.add_comm ((current_epoch - 1 - target_epoch) * 32) 8]

/-! ## Claim theorems -/

/-- C2: after any finite sequence of `insert_or_update` calls on the
empty history — epochs possibly repeated, in arbitrary order — the
result is strictly descending with no duplicate epochs, has length
exactly `min(distinct epochs inserted, 512)` and never more than 512,
holds for each retained epoch the most-recently-inserted entry, retains
only inserted epochs, and every inserted epoch that is absent lies
strictly below every retained epoch (so the retained epochs are the
largest distinct ones).  Since the sequence is universally quantified,
the length bound holds at every intermediate point as well. -/
theorem claim_C2 (ops : List (Nat × StakeHistoryEntry)) :
    SortedDesc (addAll ops) ∧
    (addAll ops).length = min ((ops.map Prod.fst).dedup.length) MAX_ENTRIES ∧
    (addAll ops).length ≤ MAX_ENTRIES ∧
    (∀ p ∈ addAll ops, lastEntry ops p.1 = some p.2 ∧ p.1 ∈ ops.map Prod.fst) ∧
    (∀ x ∈ ops.map Prod.fst, x ∉ (addAll ops).map Prod.fst →
      ∀ q ∈ addAll ops, x < q.1) := by
  obtain ⟨hs, hlen, hlast, hseen, hmiss⟩ := addAll_inv ops
  exact ⟨hs, histInv_length (addAll_inv ops), hlen,
    fun p hp => ⟨hlast p hp, hseen p hp⟩,
    fun x hx hxne q hq => (hmiss x hx hxne).2 q hq⟩

theorem claim_C2_witness :
    (addAll [(3, ⟨1, 1, 1⟩), (3, ⟨2, 2, 2⟩), (7, ⟨0, 0, 0⟩)]).length = 2 := by
  have h := claim_C2 [(3, ⟨1, 1, 1⟩), (3, ⟨2, 2, 2⟩), (7, ⟨0, 0, 0⟩)]
  rw [h.2.1]
  decide

/-- C8: on any reachable history, `get e` returns `some E` exactly when
the pair `(e, E)` is retained, and the result depends only on the set of
retained pairs, not on the order of the insertions that produced the
state. -/
theorem claim_C8 (ops : List (Nat × StakeHistoryEntry)) (e : Nat) :
    (∀ E, StakeHistory.get (addAll ops) e = some E ↔ (e, E) ∈ addAll ops) ∧
    (∀ ops2, (∀ p, p ∈ addAll ops ↔ p ∈ addAll ops2) →
      StakeHistory.get (addAll ops) e = StakeHistory.get (addAll ops2) e) := by
  have hs1 := (addAll_inv ops).1
  constructor
  · intro E
    exact get_eq_some_iff hs1
  · intro ops2 hmem
    have hs2 := (addAll_inv ops2).1
    cases hres : StakeHistory.get (addAll ops) e with
    | some E =>
      have hm := (get_eq_some_iff hs1).mp hres
      exact ((get_eq_some_iff hs2).mpr ((hmem _).mp hm)).symm
    | none =>
      have hn := (get_eq_none_iff hs1).mp hres
      exact ((get_eq_none_iff hs2).mpr (fun p hp => hn p ((hmem p).mpr hp))).symm

theorem claim_C8_witness :
    StakeHistory.get (addAll [(3, ⟨1, 2, 3⟩)]) 3 = some ⟨1, 2, 3⟩ :=
  ((claim_C8 [(3, ⟨1, 2, 3⟩)] 3).1 ⟨1, 2, 3⟩).mpr (by decide)

/-- C9: entry combination is component-wise saturating addition and is
commutative and associative, with the all-zero entry a two-sided
identity on genuine `u64` entries. -/
theorem claim_C9 (a b c : StakeHistoryEntry) :
    StakeHistoryEntry.add a b = StakeHistoryEntry.add b a ∧
    StakeHistoryEntry.add (StakeHistoryEntry.add a b) c =
      StakeHistoryEntry.add a (StakeHistoryEntry.add b c) ∧
    (a.wf → StakeHistoryEntry.add a StakeHistoryEntry.default = a ∧
      StakeHistoryEntry.add StakeHistoryEntry.default a = a) := by
  obtain ⟨a1, a2, a3⟩ := a
  obtain ⟨b1, b2, b3⟩ := b
  obtain ⟨c1, c2, c3⟩ := c
  refine ⟨?_, ?_, fun hwf => ?_⟩ <;>
    simp only [StakeHistoryEntry.add, u64SatAdd, StakeHistoryEntry.default,
      StakeHistoryEntry.wf, U64MAX, U64LIMIT, StakeHistoryEntry.mk.injEq] at * <;>
    omega

theorem claim_C9_witness :
    StakeHistoryEntry.add ⟨1, 2, 3⟩ StakeHistoryEntry.default = ⟨1, 2, 3⟩ :=
  ((claim_C9 ⟨1, 2, 3⟩ ⟨0, 0, 0⟩ ⟨0, 0, 0⟩).2.2 (by decide)).1

/-- C7 counterexample: the offset-path reader in
`sdk/program/src/stake_history.rs` (`StakeHistorySyscall::new`) happily
constructs at `current_epoch = 0` — its return type admits no failure —
while the one in `sysvar/stake_history.rs` rejects 0, so "fails on 0 on
every construction path" is false. -/
theorem claim_C7_counterexample :
    StakeHistorySyscall.new 0 = ⟨0⟩ ∧
    StakeHistorySysvar.new 0 = Except.error ProgramError.InvalidAccountData :=
  ⟨rfl, rfl⟩

/-- C7 amended: `StakeHistorySysvar::new` fails exactly on
`current_epoch = 0` and succeeds otherwise; `StakeHistorySyscall::new`
is infallible and never rejects any epoch, zero included. -/
theorem claim_C7 (current_epoch : Nat) :
    (StakeHistorySysvar.new current_epoch =
        Except.error ProgramError.InvalidAccountData ↔ current_epoch = 0) ∧
    (0 < current_epoch →
      StakeHistorySysvar.new current_epoch = Except.ok ⟨current_epoch⟩) ∧
    StakeHistorySyscall.new current_epoch = ⟨current_epoch⟩ := by
  refine ⟨?_, fun h => ?_, rfl⟩
  · unfold StakeHistorySysvar.new
    split_ifs with h1 <;> simp <;> omega
  · unfold StakeHistorySysvar.new
    rw [if_pos h]

theorem claim_C7_witness : StakeHistorySysvar.new 5 = Except.ok ⟨5⟩ :=
  (claim_C7 5).2.1 (by decide)

/-- C4 counterexample: querying a current-or-future epoch through the
sysvar-path reader yields the plain empty result `Except.ok none` — the
very value used for recoverable absence (second conjunct: an
out-of-retention epoch produces the identical result), so the
contract violation is not distinguishable at the type level. -/
theorem claim_C4_counterexample :
    StakeHistorySysvar.get_entry 1 (fun _ _ => none) 1 = Except.ok none ∧
    StakeHistorySysvar.get_entry 600 (fun _ _ => none) 2 = Except.ok none :=
  ⟨rfl, rfl⟩

/-- C4 amended: on `target_epoch ≥ current_epoch` (with a positive
current epoch) the syscall-path reader aborts with a distinct panic,
while the sysvar-path reader silently returns the plain empty result. -/
theorem claim_C4 (current_epoch target_epoch : Nat)
    (read : Nat → Nat → Option (List Nat))
    (hc : 0 < current_epoch) (ht : current_epoch ≤ target_epoch) :
    StakeHistorySysvar.get_entry current_epoch read target_epoch = Except.ok none ∧
    StakeHistorySyscall.get_entry current_epoch read target_epoch =
      Except.error "target epoch is in the future" := by
  have hsub1 : checkedSub current_epoch 1 = some (current_epoch - 1) := by
    unfold checkedSub; rw [if_pos (by omega)]
  have hsub2 : checkedSub (current_epoch - 1) target_epoch = none := by
    unfold checkedSub; rw [if_neg (by omega)]
  constructor
  · unfold StakeHistorySysvar.get_entry
    simp only [hsub1, hsub2, MAX_ENTRIES]
    rw [if_neg (by omega), if_neg (by omega)]
  · unfold StakeHistorySyscall.get_entry
    simp only [hsub1, hsub2]

theorem claim_C4_witness :
    StakeHistorySysvar.get_entry 7 (fun _ _ => none) 9 = Except.ok none ∧
    StakeHistorySyscall.get_entry 7 (fun _ _ => none) 9 =
      Except.error "target epoch is in the future" :=
  claim_C4 7 9 (fun _ _ => none) (by decide) (by decide)

/-- C3 counterexample: at `current_epoch = 514` the claim's window
formula `oldest = (current - 1) ⊖ 512 = 1` admits `target_epoch = 1`
and promises a raw read, but the code's cutoff is
`current ⊖ 512 = 2`, so the query returns the empty result without
consulting the reader — even one holding a valid record for epoch 1
(which post-read processing would have accepted, second conjunct). -/
theorem claim_C3_counterexample :
    StakeHistorySysvar.get_entry 514
      (fun _ _ => some (serializeEntryPair (1, ⟨5, 6, 7⟩))) 1 = Except.ok none ∧
    handleRead 1 (some (serializeEntryPair (1, ⟨5, 6, 7⟩))) =
      Except.ok (some ⟨5, 6, 7⟩) :=
  ⟨rfl, rfl⟩

/-- C3 amended: with the code's retention cutoff
`oldest = current_epoch ⊖ 512` (not `(current_epoch - 1) ⊖ 512`), the
sysvar-path reader returns the recoverable empty result for
`target_epoch = 0` or below the cutoff, and for every in-window target
it proceeds to a raw read of one record. -/
theorem claim_C3 (current_epoch target_epoch : Nat)
    (read : Nat → Nat → Option (List Nat)) (hc : 0 < current_epoch) :
    ((target_epoch = 0 ∨ target_epoch < current_epoch - MAX_ENTRIES) →
      StakeHistorySysvar.get_entry current_epoch read target_epoch = Except.ok none) ∧
    (0 < target_epoch → current_epoch - MAX_ENTRIES ≤ target_epoch →
      target_epoch < current_epoch →
      ∃ off, StakeHistorySysvar.get_entry current_epoch read target_epoch =
        handleRead target_epoch (read off 32)) := by
  constructor
  · intro hcase
    have hsub1 : checkedSub current_epoch 1 = some (current_epoch - 1) := by
      unfold checkedSub; rw [if_pos (by omega)]
    unfold StakeHistorySysvar.get_entry
    simp only [hsub1, MAX_ENTRIES]
    unfold MAX_ENTRIES at hcase
    by_cases h0 : target_epoch = 0
    · rw [if_pos h0]
    · rw [if_neg h0, if_pos (by omega)]
  · intro h1 h2 h3
    exact ⟨8 + (current_epoch - 1 - target_epoch) * 32, getEntry_window hc h1 h2 h3 read⟩

theorem claim_C3_witness :
    StakeHistorySysvar.get_entry 600 (fun _ _ => none) 0 = Except.ok none :=
  (claim_C3 600 0 (fun _ _ => none) (by decide)).1 (Or.inl rfl)

/-- C5 counterexample: at `current_epoch = 515` the claim's decision
policy accepts `target_epoch = 2` (its `oldest = (515-1) ⊖ 512 = 2`)
and prescribes a read at offset `8 + (514-2)·32 = 16392`, but the code
rejects 2 (cutoff `515 ⊖ 512 = 3`) and performs no read at all: a
reader serving a valid epoch-2 record at exactly that offset still
yields the empty result, though post-read processing would have
returned the entry (second conjunct). -/
theorem claim_C5_counterexample :
    StakeHistorySysvar.get_entry 515
      (fun off len =>
        if off = 16392 ∧ len = 32 then some (serializeEntryPair (2, ⟨9, 9, 9⟩))
        else none) 2 = Except.ok none ∧
    handleRead 2 (some (serializeEntryPair (2, ⟨9, 9, 9⟩))) =
      Except.ok (some ⟨9, 9, 9⟩) :=
  ⟨rfl, rfl⟩

/-- C5 amended: for every target accepted by the code's decision policy
(`target_epoch > 0`, `target_epoch ≥ current_epoch ⊖ 512`,
`target_epoch < current_epoch`), the query performs exactly one raw
read, of length 32, at byte offset
`8 + (newest_historical_epoch - target_epoch) · 32` with
`newest_historical_epoch = current_epoch - 1`: the result is exactly
the post-processing of the raw read at that one offset. -/
theorem claim_C5 (current_epoch target_epoch : Nat)
    (read : Nat → Nat → Option (List Nat))
    (hc : 0 < current_epoch) (ht0 : 0 < target_epoch)
    (hto : current_epoch - MAX_ENTRIES ≤ target_epoch)
    (htc : target_epoch < current_epoch) :
    StakeHistorySysvar.get_entry current_epoch read target_epoch =
      handleRead target_epoch
        (read (8 + (current_epoch - 1 - target_epoch) * 32) 32) :=
  getEntry_window hc ht0 hto htc read

theorem claim_C5_witness :
    StakeHistorySysvar.get_entry 3
      (mkReader (serialize (addAll [(1, ⟨5, 0, 0⟩), (2, ⟨6, 0, 0⟩)]))) 2 =
      handleRead 2
        (mkReader (serialize (addAll [(1, ⟨5, 0, 0⟩), (2, ⟨6, 0, 0⟩)]))
          (8 + (3 - 1 - 2) * 32) 32) :=
  claim_C5 3 2 _ (by decide) (by decide) (by decide) (by decide)

/-! ## Serialization lemmas -/

theorem u64LE_length (v : Nat) : (u64LE v).length = 8 := rfl

theorem serializeEntryPair_length (p : Nat × StakeHistoryEntry) :
    (serializeEntryPair p).length = 32 := by
  obtain ⟨e, E⟩ := p
  rfl

theorem flat_records_length (h : StakeHistory) :
    ((h.map serializeEntryPair).flatten).length = 32 * h.length := by
  induction h with
  | nil => rfl
  | cons p t ih =>
    simp only [List.map_cons, List.flatten_cons, List.length_append, ih,
      serializeEntryPair_length, List.length_cons]
    ring

theorem serialize_length (h : StakeHistory) :
    (serialize h).length = 8 + 32 * h.length := by
  unfold serialize
  rw [List.length_append, u64LE_length, flat_records_length]

theorem flat_records_drop (h : StakeHistory) :
    ∀ i, i < h.length →
      ((h.map serializeEntryPair).flatten).drop (32 * i) =
        serializeEntryPair (h.getD i d0) ++
          ((h.drop (i + 1)).map serializeEntryPair).flatten := by
  induction h with
  | nil => intro i hi; simp at hi
  | cons p t ih =>
    intro i hi
    cases i with
    | zero =>
      simp only [List.map_cons, List.flatten_cons, Nat.mul_zero, List.drop_zero,
        List.getD_cons_zero, List.drop_succ_cons, List.drop_zero]
    | succ i =>
      simp only [List.map_cons, List.flatten_cons]
      rw [List.drop_append_eq_append_drop]
      rw [List.drop_eq_nil_of_le (by rw [serializeEntryPair_length]; omega),
        List.nil_append]
      rw [serializeEntryPair_length]
      rw [show 32 * (i + 1) - 32 = 32 * i by ring_nf; omega]
      rw [ih i (by simpa using hi)]
      simp only [List.getD_cons_succ, List.drop_succ_cons]

/-- The 32-byte slice of the serialized history at record offset `i` is
the serialized record `i`. -/
theorem serialize_record (h : StakeHistory) (i : Nat) (hi : i < h.length) :
    ((serialize h).drop (8 + 32 * i)).take 32 = serializeEntryPair (h.getD i d0) := by
  unfold serialize
  rw [List.drop_append_eq_append_drop]
  rw [List.drop_eq_nil_of_le (by rw [u64LE_length]; omega), List.nil_append]
  rw [u64LE_length, show 8 + 32 * i - 8 = 32 * i by omega]
  rw [flat_records_drop h i hi]
  exact List.take_left' (serializeEntryPair_length _)

theorem readU64_cons0 (a0 a1 a2 a3 a4 a5 a6 a7 : Nat) (rest : List Nat) :
    readU64 (a0 :: a1 :: a2 :: a3 :: a4 :: a5 :: a6 :: a7 :: rest) 0 =
      a0 + 256 * (a1 + 256 * (a2 + 256 * (a3 + 256 * (a4 + 256 * (a5 +
        256 * (a6 + 256 * a7)))))) := rfl

theorem readU64_u64LE_append (v : Nat) (hv : v < U64LIMIT) (rest : List Nat) :
    readU64 (u64LE v ++ rest) 0 = v := by
  rw [show u64LE v ++ rest =
    v % 256 :: v / 256 % 256 :: v / 65536 % 256 :: v / 16777216 % 256 ::
    v / 4294967296 % 256 :: v / 1099511627776 % 256 ::
    v / 281474976710656 % 256 :: v / 72057594037927936 % 256 :: rest from rfl]
  rw [readU64_cons0]
  unfold U64LIMIT at hv
  omega

/-- Decoding a serialized record recovers the record, provided its
fields are genuine `u64` values. -/
theorem decodePair_serializeEntryPair (e : Nat) (E : StakeHistoryEntry)
    (he : e < U64LIMIT) (hE : E.wf) :
    decodePair (serializeEntryPair (e, E)) = some (e, E) := by
  obtain ⟨f1, f2, f3⟩ := E
  obtain ⟨h1, h2, h3⟩ := hE
  unfold decodePair
  rw [if_pos (by rw [serializeEntryPair_length])]
  simp only [Option.some.injEq, Prod.mk.injEq, StakeHistoryEntry.mk.injEq]
  refine ⟨?_, ?_, ?_, ?_⟩
  · exact readU64_u64LE_append e he (u64LE f1 ++ u64LE f2 ++ u64LE f3)
  · exact readU64_u64LE_append f1 h1 (u64LE f2 ++ u64LE f3)
  · exact readU64_u64LE_append f2 h2 (u64LE f3)
  · exact readU64_u64LE_append f3 h3 []

/-- C10: the serialized form of a full history (512 records) is exactly
16392 bytes — an 8-byte record count plus 512 records of 32 bytes — and
this equals the hard-coded `Sysvar::size_of` value. -/
theorem claim_C10 (h : StakeHistory) (hlen : h.length = MAX_ENTRIES) :
    (serialize h).length = 16392 ∧ StakeHistory.size_of = 16392 := by
  constructor
  · rw [serialize_length, hlen]
    rfl
  · rfl

theorem claim_C10_witness :
    (serialize (List.replicate 512 d0)).length = 16392 :=
  (claim_C10 (List.replicate 512 d0) (by rw [List.length_replicate]; rfl)).1

/-- C6: for every in-window target (one accepted by the decision
policy), the sysvar-path query reads one fixed offset and: a failed raw
read yields the recoverable empty result; a successful read that
decodes to the target epoch yields the decoded entry; and a successful
read whose decoded epoch differs from the target always aborts — an
entry from a mismatched record is never returned.  (A buffer too short
to decode is a failed decode, hence empty.) -/
theorem claim_C6 (current_epoch target_epoch : Nat)
    (hc : 0 < current_epoch) (ht0 : 0 < target_epoch)
    (hto : current_epoch - MAX_ENTRIES ≤ target_epoch)
    (htc : target_epoch < current_epoch) :
    ∃ off, ∀ read : Nat → Nat → Option (List Nat),
      (read off 32 = none →
        StakeHistorySysvar.get_entry current_epoch read target_epoch = Except.ok none) ∧
      (∀ buf, read off 32 = some buf → buf.length < 32 →
        StakeHistorySysvar.get_entry current_epoch read target_epoch = Except.ok none) ∧
      (∀ buf entry_epoch entry, read off 32 = some buf →
        decodePair buf = some (entry_epoch, entry) →
        (entry_epoch = target_epoch →
          StakeHistorySysvar.get_entry current_epoch read target_epoch =
            Except.ok (some entry)) ∧
        (entry_epoch ≠ target_epoch →
          StakeHistorySysvar.get_entry current_epoch read target_epoch =
            Except.error "entry epoch does not match target epoch")) := by
  refine ⟨8 + (current_epoch - 1 - target_epoch) * 32, fun read => ?_⟩
  have hw := getEntry_window hc ht0 hto htc read
  refine ⟨?_, ?_, ?_⟩
  · intro hnone
    rw [hw, hnone, handleRead_none]
  · intro buf hsome hshort
    rw [hw, hsome, handleRead_short hshort]
  · intro buf ee en hsome hdec
    constructor
    · intro heq
      rw [hw, hsome, handleRead_some hdec, if_pos heq]
    · intro hne
      rw [hw, hsome, handleRead_some hdec, if_neg hne]

theorem claim_C6_witness :
    StakeHistorySysvar.get_entry 3 (fun _ _ => none) 2 = Except.ok none := by
  obtain ⟨off, hspec⟩ := claim_C6 3 2 (by decide) (by decide) (by decide) (by decide)
  exact (hspec (fun _ _ => none)).1 rfl

/-- C1 counterexample: the history `[(0, E)]` retains epoch 0 and the
in-memory search finds it, but the offset path (constructed with
`current_epoch = max_retained_epoch + 1 = 1`) returns the empty result
for target 0, so the two access paths disagree on a retained epoch. -/
theorem claim_C1_counterexample :
    StakeHistory.get (addAll [(0, ⟨7, 8, 9⟩)]) 0 = some ⟨7, 8, 9⟩ ∧
    StakeHistorySysvar.get_entry 1
      (mkReader (serialize (addAll [(0, ⟨7, 8, 9⟩)]))) 0 = Except.ok none :=
  ⟨rfl, rfl⟩

/-- C1 amended: for every *dense* history — consecutive descending
epochs `M, M-1, …`, as produced by the once-per-epoch-boundary
lifecycle — of genuine `u64` records, and every retained epoch
`e ≥ 1`, querying `e` through the offset path over the serialized
history with `current_epoch = M + 1` returns exactly the entry the
in-memory search returns. -/
theorem claim_C1 (h : StakeHistory) (M e : Nat) (E : StakeHistoryEntry)
    (hlen : h.length ≤ MAX_ENTRIES)
    (hlenM : h.length ≤ M + 1)
    (hM : M + 1 < U64LIMIT)
    (hwf : ∀ p ∈ h, p.2.wf)
    (hdense : ∀ i, i < h.length → (h.getD i d0).1 = M - i)
    (he : 1 ≤ e)
    (hget : StakeHistory.get h e = some E) :
    StakeHistorySysvar.get_entry (M + 1) (mkReader (serialize h)) e =
      Except.ok (some E) := by
  have hs : SortedDesc h := by
    refine List.pairwise_iff_getElem.mpr ?_
    intro i j hi hj hij
    have h1 := hdense i hi
    have h2 := hdense j hj
    show (h[j]).1 < (h[i]).1
    rw [← List.getD_eq_getElem h d0 hi, ← List.getD_eq_getElem h d0 hj, h1, h2]
    omega
  have hmem : (e, E) ∈ h := (get_eq_some_iff hs).mp hget
  obtain ⟨n, hn, hne⟩ := List.mem_iff_getElem.mp hmem
  have hkey : (h.getD n d0).1 = e := by rw [List.getD_eq_getElem h d0 hn, hne]
  have hMn := hdense n hn
  have hnM : n ≤ M := by omega
  have henM : e = M - n := by omega
  unfold MAX_ENTRIES at hlen
  have hwindow2 : (M + 1) - MAX_ENTRIES ≤ e := by unfold MAX_ENTRIES; omega
  rw [getEntry_window (by omega) he hwindow2 (by omega)]
  have hoff : M + 1 - 1 - e = n := by omega
  rw [hoff]
  simp only [mkReader]
  rw [if_pos (show 8 + n * 32 + 32 ≤ (serialize h).length from by
    rw [serialize_length]; omega)]
  rw [show 8 + n * 32 = 8 + 32 * n from by ring]
  rw [serialize_record h n hn]
  have hpairn : h.getD n d0 = (e, E) := by rw [List.getD_eq_getElem h d0 hn, hne]
  rw [hpairn]
  rw [handleRead_some (decodePair_serializeEntryPair e E (by omega) (hwf (e, E) hmem)),
    if_pos rfl]

theorem claim_C1_witness :
    StakeHistorySysvar.get_entry 3
      (mkReader (serialize [(2, ⟨1, 0, 0⟩), (1, ⟨2, 0, 0⟩)])) 1 =
      Except.ok (some ⟨2, 0, 0⟩) :=
  claim_C1 [(2, ⟨1, 0, 0⟩), (1, ⟨2, 0, 0⟩)] 2 1 ⟨2, 0, 0⟩ (by decide) (by decide)
    (by decide) (by decide) (by decide) (by decide) (by decide)

end StakeHist
